import Mathlib

/-!
Verification of the Halon Wildstar-archive reader (`halon.py`).

Embedding conventions:
* Python `str` values (names, paths, error messages) are modelled as `List Char`.
* Python `bytes` values are modelled as `List Nat`, one entry per byte.
* Python `dict` is modelled as an association list built with `dictInsert`
  (assignment keeps the position of an existing key and overwrites its value,
  exactly like CPython dicts), looked up with `lookupA` (first match; on
  lists built by `dictInsert` keys are unique, so this is dict lookup).
* Fallible operations return `Except`/`Option`; a raised Python exception is
  an `.error` value.  The `lzma` library decompressor is an abstract
  parameter `lzmaDec`, constrained only where a claim needs the documented
  behaviour of `.lzma` (alone-format) streams.
-/

set_option maxRecDepth 8000

namespace Halon

abbrev Str := List Char
abbrev Bytes := List Nat

/-- First-match association lookup: lookup in a Python dict whose insertion
order is the list order (keys are unique in a real dict, see `dictInsert`). -/
def lookupA {β : Type} : List (Str × β) → Str → Option β
  | [], _ => none
  | (k, v) :: t, key => if k = key then some v else lookupA t key

/-- Python dict assignment `d[k] = v`: overwrite in place if the key exists
(keeping its position), else append. -/
def dictInsert {κ β : Type} [DecidableEq κ] : List (κ × β) → κ → β → List (κ × β)
  | [], k, v => [(k, v)]
  | (k', v') :: t, k, v => if k' = k then (k, v) :: t else (k', v') :: dictInsert t k v

/-- Python substring test `pat in s`. -/
def inStr (pat : Str) : Str → Bool
  | [] => pat.isEmpty
  | c :: t => pat.isPrefixOf (c :: t) || inStr pat t

/-- Helper `os.path.join` for exactly two POSIX components, as used by the source
(`os.path.join(parent.path or '', name)`). -/
def pathjoin (p n : Str) : Str :=
  if n.head? = some '/' then n
  else if p = [] then n
  else if p.getLast? = some '/' then p ++ n
  else p ++ '/' :: n

/-- A `File` node: the fields `File.__init__` stores on the object
(`name`, `path`, `compression`, `uncompressed_size`, `compressed_size`,
`sha1`); the filesystem back-reference is passed explicitly to `read`. -/
structure File where
  name : Str
  path : Str
  compression : Nat
  uncompressed_size : Nat
  compressed_size : Nat
  sha1 : Bytes
deriving DecidableEq, Repr

/-- A `Directory` node: `name`, `path`, the `dirs` dict and the `files` dict. -/
inductive Directory where
| mk : Str → Str → List (Str × Directory) → List (Str × File) → Directory

def Directory.name : Directory → Str
  | .mk n _ _ _ => n

def Directory.path : Directory → Str
  | .mk _ p _ _ => p

def Directory.dirs : Directory → List (Str × Directory)
  | .mk _ _ ds _ => ds

def Directory.files : Directory → List (Str × File)
  | .mk _ _ _ fs => fs

/-- A node yielded by `find`/`__getitem__`: either a directory or a file. -/
inductive FsNode where
| dir (d : Directory)
| file (f : File)

def FsNode.path : FsNode → Str
  | .dir d => d.path
  | .file f => f.path

def FsNode.isDirB : FsNode → Bool
  | .dir _ => true
  | .file _ => false

mutual
/-- Method `Directory.find(path, recursive)`: files whose path contains the pattern,
then each directory (if its path matches) followed — when `recursive` — by
`dir.find(path)` (whose own `recursive` argument is the default `True`). -/
def Directory.find : Directory → Str → Bool → List FsNode
  | .mk _ _ ds fs, pat, rcv =>
      (fs.filter (fun e => inStr pat e.2.path)).map (fun e => FsNode.file e.2)
        ++ findChildren ds pat rcv
def findChildren : List (Str × Directory) → Str → Bool → List FsNode
  | [], _, _ => []
  | (_, d) :: t, pat, rcv =>
      ((if inStr pat d.path then [FsNode.dir d] else [])
        ++ (if rcv then d.find pat true else []))
        ++ findChildren t pat rcv
end

/-- Method `Directory.list(path, recursive)`. -/
def Directory.list (d : Directory) (pat : Str) (rcv : Bool) : List Str :=
  (d.find pat rcv).map FsNode.path

mutual
/-- Every node of the subtree below a directory (the directory itself
excluded), in depth-first pre-order: the reference enumeration against which
`find` with the empty pattern is compared. -/
def Directory.descendants : Directory → List FsNode
  | .mk _ _ ds fs => fs.map (fun e => FsNode.file e.2) ++ descChildren ds
def descChildren : List (Str × Directory) → List FsNode
  | [] => []
  | (_, d) :: t => FsNode.dir d :: d.descendants ++ descChildren t
end

mutual
/-- The dict invariant: key lists are duplicate-free, at every level. -/
def nodupKeys : Directory → Bool
  | .mk _ _ ds fs =>
      decide (ds.map Prod.fst).Nodup && decide (fs.map Prod.fst).Nodup && nodupKeysL ds
def nodupKeysL : List (Str × Directory) → Bool
  | [] => true
  | (_, d) :: t => nodupKeys d && nodupKeysL t
end

mutual
/-- Well-formed tree: the dict invariant plus path consistency — each child
is stored under its own name, names are nonempty and slash-free, and each
child's `path` is its parent's path joined with its name (as set up by
`Directory.__init__` / `File.__init__`). -/
def wellformed : Directory → Bool
  | .mk _ p ds fs =>
      decide (ds.map Prod.fst).Nodup && decide (fs.map Prod.fst).Nodup &&
      fs.all (fun e =>
        decide (e.1 ≠ []) && decide ('/' ∉ e.1) && decide (e.2.name = e.1) &&
        decide (e.2.path = pathjoin p e.1)) &&
      wfChildren p ds
def wfChildren : Str → List (Str × Directory) → Bool
  | _, [] => true
  | p, (n, d) :: t =>
      decide (n ≠ []) && decide ('/' ∉ n) && decide (d.name = n) &&
      decide (d.path = pathjoin p n) && wellformed d && wfChildren p t
end

/-- Python `s.split(sep)` (no maxsplit): `''.split(sep) = ['']`. -/
def splitAll (sep : Char) : Str → List Str
  | [] => [[]]
  | c :: t =>
      match splitAll sep t with
      | [] => [[]]
      | s :: rest => if c = sep then [] :: s :: rest else (c :: s) :: rest

/-- Python `s.split(sep, 1)`: the part before the first separator, and
(optionally) everything after it. -/
def splitOnce (sep : Char) : Str → Str × Option Str
  | [] => ([], none)
  | c :: t =>
      if c = sep then ([], some t)
      else
        match splitOnce sep t with
        | (h, r) => (c :: h, r)

/-- Python `s.startswith(pre)`. -/
def startswith (pre s : Str) : Bool := pre.isPrefixOf s

/-- Stdlib `posixpath.normpath`, as called by `Directory.__getitem__`. -/
def normpath (p : Str) : Str :=
  if p = [] then ['.']
  else
    let slashes : Nat :=
      if startswith ['/'] p then
        if startswith ['/', '/'] p && !startswith ['/', '/', '/'] p then 2 else 1
      else 0
    let comps := splitAll '/' p
    let newComps := comps.foldl (fun acc comp =>
      if comp = [] ∨ comp = ['.'] then acc
      else if comp ≠ ['.', '.'] ∨ (slashes = 0 ∧ acc = [])
              ∨ (acc ≠ [] ∧ acc.getLast? = some ['.', '.']) then acc ++ [comp]
      else if acc ≠ [] then acc.dropLast
      else acc) []
    let res := List.replicate slashes '/' ++ List.intercalate ['/'] newComps
    if res = [] then ['.'] else res

/-- The `FileNotFoundError` raised by `Directory.__getitem__`: the failing
component (`e.file`), the current message (`e.args`), and how many times the
message has been rewritten by an `except` clause on the way out. -/
structure LookupError where
  file : Str
  msg : Str
  rewrites : Nat
deriving DecidableEq, Repr

def couldNotFind (c : Str) : Str := "Could not find ".data ++ c

def couldNotFindIn (c path : Str) : Str :=
  "Could not find ".data ++ c ++ " in path ".data ++ path

/-- The `except FileNotFoundError` clause of `Directory.__getitem__`: if the
requested path differs from the failing component, rewrite the message to
name the full requested path, then re-raise. -/
def rewriteErr (path : Str) : Except LookupError FsNode → Except LookupError FsNode
  | .ok v => .ok v
  | .error e =>
      if path ≠ e.file then .error ⟨e.file, couldNotFindIn e.file path, e.rewrites + 1⟩
      else .error e

mutual
/-- Method `Directory.__getitem__(path)`: empty/absent path returns the directory
itself; otherwise normalize, split off the head component, look it up among
subdirectories (recursing on the tail) then files, and pass any failure
through the `except` rewriting clause. -/
def Directory.getitem : Directory → Option Str → Except LookupError FsNode
  | d, none => .ok (.dir d)
  | .mk nm p ds fs, some path =>
      if path = [] then .ok (.dir (.mk nm p ds fs))
      else
        match splitOnce '/' (normpath path) with
        | (head, tail) => rewriteErr path (getChild ds fs head tail)
def getChild : List (Str × Directory) → List (Str × File) → Str → Option Str →
    Except LookupError FsNode
  | [], fs, head, _ =>
      match lookupA fs head with
      | some f => .ok (.file f)
      | none => .error ⟨head, couldNotFind head, 0⟩
  | (n, d) :: rest, fs, head, tail =>
      if n = head then d.getitem tail else getChild rest fs head tail
end

/-- A diff event, as yielded by `diff`: `'-'`/`'+'`/`'!'` tagged tuples. -/
inductive Event where
| removedDir (d : Directory)
| addedDir (d : Directory)
| changedDir (d1 d2 : Directory) (r a c : Nat)
| removedFile (f : File)
| addedFile (f : File)
| changedFile (f1 f2 : File)

def Event.tagRemoved : Event → Bool
  | .removedDir _ => true
  | .removedFile _ => true
  | _ => false

def Event.tagAdded : Event → Bool
  | .addedDir _ => true
  | .addedFile _ => true
  | _ => false

def Event.tagChanged : Event → Bool
  | .changedDir _ _ _ _ _ => true
  | .changedFile _ _ => true
  | _ => false

def Event.isChangedDir : Event → Bool
  | .changedDir _ _ _ _ _ => true
  | _ => false

/-- The `collections.Counter` of `diffcount` over the event tags:
(`'-'` count, `'+'` count, `'!'` count). -/
def countEvents (evs : List Event) : Nat × Nat × Nat :=
  (evs.countP Event.tagRemoved, evs.countP Event.tagAdded, evs.countP Event.tagChanged)

/-- The `f1 & f2` loop of `diff`: common file names, compared by `sha1`. -/
def commonF : List (Str × File) → List (Str × File) → List Event
  | [], _ => []
  | (n, f1) :: rest, fs2 =>
      (match lookupA fs2 n with
       | some f2 => if f1.sha1 ≠ f2.sha1 then [.changedFile f1 f2] else []
       | none => []) ++ commonF rest fs2

mutual
/-- Function `diff(dir1, dir2, verbose)`: removed dirs, added dirs, common dirs
(recursing — note the recursive call `diff(dir1.dirs[d], dir2.dirs[d])`
leaves `verbose` at its default `False`), then removed/added/changed files. -/
def diff : Bool → Directory → Directory → List Event
  | v, .mk _ _ ds1 fs1, t2 =>
      (ds1.filter (fun e => (lookupA t2.dirs e.1).isNone)).map (fun e => Event.removedDir e.2)
        ++ (t2.dirs.filter (fun e => (lookupA ds1 e.1).isNone)).map (fun e => Event.addedDir e.2)
        ++ commonD v ds1 t2.dirs
        ++ (fs1.filter (fun e => (lookupA t2.files e.1).isNone)).map (fun e => Event.removedFile e.2)
        ++ (t2.files.filter (fun e => (lookupA fs1 e.1).isNone)).map (fun e => Event.addedFile e.2)
        ++ commonF fs1 t2.files
/-- The `d1 & d2` loop of `diff`: in verbose mode splice in
`diff(sub1, sub2)` (non-verbose, the default); otherwise emit one change
event with the `diffcount` triple when it is nonzero. -/
def commonD : Bool → List (Str × Directory) → List (Str × Directory) → List Event
  | _, [], _ => []
  | v, (n, s1) :: rest, ds2 =>
      (match lookupA ds2 n with
       | some s2 =>
          if v then diff false s1 s2
          else
            match countEvents (diff true s1 s2) with
            | (r, a, c) => if r > 0 ∨ a > 0 ∨ c > 0 then [.changedDir s1 s2 r a c] else []
       | none => []) ++ commonD v rest ds2
end

/-- Function `diffcount(dir1, dir2)`: tag counts of the verbose diff. -/
def diffcount (t1 t2 : Directory) : Nat × Nat × Nat :=
  countEvents (diff true t1 t2)

mutual
/-- Modelled from the spec: the fully recursive verbose diff in which, for
directories present in both trees, "every nested event from the recursive
diff" is yielded directly at every depth.  (The code's `diff` drops
`verbose` at the first recursive call; this definition is the spec's reading
of verbose mode, used to compare the two.) -/
def diffFull : Directory → Directory → List Event
  | .mk _ _ ds1 fs1, t2 =>
      (ds1.filter (fun e => (lookupA t2.dirs e.1).isNone)).map (fun e => Event.removedDir e.2)
        ++ (t2.dirs.filter (fun e => (lookupA ds1 e.1).isNone)).map (fun e => Event.addedDir e.2)
        ++ commonDFull ds1 t2.dirs
        ++ (fs1.filter (fun e => (lookupA t2.files e.1).isNone)).map (fun e => Event.removedFile e.2)
        ++ (t2.files.filter (fun e => (lookupA fs1 e.1).isNone)).map (fun e => Event.addedFile e.2)
        ++ commonF fs1 t2.files
def commonDFull : List (Str × Directory) → List (Str × Directory) → List Event
  | [], _ => []
  | (n, s1) :: rest, ds2 =>
      (match lookupA ds2 n with
       | some s2 => diffFull s1 s2
       | none => []) ++ commonDFull rest ds2
end

/-! ## Binary decoding (`Archive.__init__`, `Directory.__init__`, `File.read`) -/

/-- Little-endian decode of a byte list (how `struct.unpack('<…')` reads an
integer field). -/
def leDec (bs : Bytes) : Nat := bs.foldr (fun b acc => b + 256 * acc) 0

/-- Little-endian encode of `n` into `w` bytes (`struct.pack` of a fixed
width field; the caller must ensure `n < 2^(8*w)`, as `struct.pack` raises
otherwise). -/
def leEnc : Nat → Nat → Bytes
  | 0, _ => []
  | w + 1, n => (n % 256) :: leEnc w (n / 256)

/-- An integer field of `n` bytes at offset `off` of a byte string. -/
def field (bs : Bytes) (off n : Nat) : Nat := leDec ((bs.drop off).take n)

/-- A raw `bytes` field of `n` bytes at offset `off`. -/
def rawField (bs : Bytes) (off n : Nat) : Bytes := (bs.drop off).take n

/-- The Python exceptions the loading/reading code can raise. -/
inductive FormatError where
| structError     -- `struct.error`: short read while unpacking
| indexError      -- `IndexError`: block-table index out of range
| valueError      -- `ValueError`: `names.index(b'\x00', off)` found no NUL
| unicodeError    -- `UnicodeDecodeError`: name byte not ASCII
| attributeError  -- `AttributeError`: root block magic gave the Archive no such attribute
| recursionError  -- recursion-depth budget exhausted while building the tree
deriving DecidableEq, Repr

/-- The 556-byte container header `'<4sI512xQQQIII'`. -/
structure Header where
  magic : Bytes
  version : Nat
  filesize : Nat
  unk1 : Nat
  fs_offset : Nat
  fs_count : Nat
  unk2 : Nat
  root_index : Nat
deriving DecidableEq, Repr

def parseHeader (data : Bytes) : Except FormatError Header :=
  if data.length < 556 then .error .structError
  else .ok ⟨rawField data 0 4, field data 4 4, field data 520 8, field data 528 8,
            field data 536 8, field data 544 4, field data 548 4, field data 552 4⟩

/-- Reads `cnt` block-table records of `'<QQ'` from a byte stream. -/
def fsEntries : Bytes → Nat → List (Nat × Nat)
  | _, 0 => []
  | bs, n + 1 => (leDec (bs.take 8), leDec ((bs.drop 8).take 8)) :: fsEntries (bs.drop 16) n

/-- Read the block table: `fs_count` sequential 16-byte reads starting at
`fs_offset`; any short read raises `struct.error`. -/
def parseFsTable (data : Bytes) (off cnt : Nat) : Except FormatError (List (Nat × Nat)) :=
  if off + 16 * cnt ≤ data.length then .ok (fsEntries (data.drop off) cnt)
  else .error .structError

/-- Lookup `self.fs[i]`: Python list indexing — `IndexError` when out of range, so
an out-of-range block index can never read past the table. -/
def getBlock (fs : List (Nat × Nat)) (i : Nat) : Except FormatError (Nat × Nat) :=
  match fs.get? i with
  | some b => .ok b
  | none => .error .indexError

def craaMagic : Bytes := [67, 82, 65, 65]  -- b'CRAA'
def aidxMagic : Bytes := [88, 68, 73, 65]  -- b'XDIA'

/-- The 16-byte root-block sub-header `'<4sIII'`. -/
def parseRootHeader (data : Bytes) (off : Nat) :
    Except FormatError (Bytes × Nat × Nat × Nat) :=
  if off + 16 ≤ data.length then
    .ok (rawField data off 4, field data (off + 4) 4, field data (off + 8) 4,
         field data (off + 12) 4)
  else .error .structError

/-- Reads `block_count` hash-table records of `'<I20sQ'`: (sha1, (index, size)). -/
def blockEntries : Bytes → Nat → List (Bytes × Nat × Nat)
  | _, 0 => []
  | bs, n + 1 =>
      (rawField bs 4 20, leDec (bs.take 4), leDec ((bs.drop 24).take 8))
        :: blockEntries (bs.drop 32) n

/-- Builds `self.blocks[sha1] = (index, size)` over all entries: dict built by
assignment. -/
def buildBlocks (l : List (Bytes × Nat × Nat)) : List (Bytes × Nat × Nat) :=
  l.foldl (fun acc e => dictInsert acc e.1 e.2) []

/-- Python dict lookup keyed by a `bytes` value. -/
def lookupB : List (Bytes × Nat × Nat) → Bytes → Option (Nat × Nat)
  | [], _ => none
  | (k, v) :: t, key => if k = key then some v else lookupB t key

/-- The decoded state of `Archive.__init__`: the block table, plus
`self.blocks` when the root block was `b'CRAA'` and `self.root_dir_index`
when it was `b'XDIA'` (either attribute is simply absent otherwise). -/
structure Archive where
  fs : List (Nat × Nat)
  blocks : Option (List (Bytes × Nat × Nat))
  root_dir_index : Option Nat
deriving DecidableEq, Repr

def decodeArchive (data : Bytes) : Except FormatError Archive := do
  let h ← parseHeader data
  let fs ← parseFsTable data h.fs_offset h.fs_count
  let (off, _bsize) ← getBlock fs h.root_index
  let (magic2, _v2, fieldA, fieldB) ← parseRootHeader data off
  let blocks ←
    if magic2 = craaMagic then do
      let (boff, _bs) ← getBlock fs fieldB
      if boff + 32 * fieldA ≤ data.length then
        pure (some (buildBlocks (blockEntries (data.drop boff) fieldA)))
      else .error .structError
    else pure none
  let rdi := if magic2 = aidxMagic then some fieldB else none
  .ok ⟨fs, blocks, rdi⟩

/-- One file entry `'<II8sQQ20s4x'` of a directory record. -/
structure FileRaw where
  name_offset : Nat
  compression : Nat
  unk1 : Bytes
  uncompressed_size : Nat
  compressed_size : Nat
  sha1 : Bytes
deriving DecidableEq, Repr

def fileEntries : Bytes → Nat → List FileRaw
  | _, 0 => []
  | bs, n + 1 =>
      ⟨leDec (bs.take 4), leDec ((bs.drop 4).take 4), rawField bs 8 8,
       field bs 16 8, field bs 24 8, rawField bs 32 20⟩ :: fileEntries (bs.drop 56) n

/-- Reads `ndirs` dir entries of `'<II'`: (name offset, child block index). -/
def fsEntries8 : Bytes → Nat → List (Nat × Nat)
  | _, 0 => []
  | bs, n + 1 => (leDec (bs.take 4), leDec ((bs.drop 4).take 4)) :: fsEntries8 (bs.drop 8) n

/-- Parse one on-disk directory record: resolve the block, read the two
counts, the dir entries, the file entries, and the trailing name table
(`read(remaining)`: a negative remainder reads to end of file). -/
def parseDirBlock (data : Bytes) (fs : List (Nat × Nat)) (block_index : Nat) :
    Except FormatError (List (Nat × Nat) × List FileRaw × Bytes) := do
  let (boff, bsize) ← getBlock fs block_index
  let consumed := 8 + 8 * field data boff 4 + 56 * field data (boff + 4) 4
  if boff + consumed ≤ data.length then
    let dents := fsEntries8 (data.drop (boff + 8)) (field data boff 4)
    let fents := fileEntries (data.drop (boff + 8 + 8 * field data boff 4))
      (field data (boff + 4) 4)
    let names :=
      if consumed ≤ bsize then (data.drop (boff + consumed)).take (bsize - consumed)
      else data.drop (boff + consumed)
    .ok (dents, fents, names)
  else .error .structError

/-- Name extraction `names[name_offset:names.index(b'\x00', name_offset)].decode('ascii')`. -/
def getName (names : Bytes) (off : Nat) : Except FormatError Str :=
  match (names.drop off).findIdx? (fun b => b == 0) with
  | none => .error .valueError
  | some i =>
      let bs := (names.drop off).take i
      if bs.all (fun b => b < 128) then .ok (bs.map Char.ofNat)
      else .error .unicodeError

/-- The `for name_offset, block_index in dir_entries` loop: build the child
directory for each entry with the supplied constructor and insert it into
the `dirs` dict. -/
def buildDirs (dec : Str → Nat → Except FormatError Directory) (names : Bytes) :
    List (Nat × Nat) → List (Str × Directory) → Except FormatError (List (Str × Directory))
  | [], acc => .ok acc
  | (noff, bidx) :: rest, acc => do
      let nm ← getName names noff
      let child ← dec nm bidx
      buildDirs dec names rest (dictInsert acc nm child)

/-- The `for name_offset, *filedata in file_entries` loop. -/
def buildFiles (path : Str) (names : Bytes) :
    List FileRaw → List (Str × File) → Except FormatError (List (Str × File))
  | [], acc => .ok acc
  | fr :: rest, acc => do
      let nm ← getName names fr.name_offset
      buildFiles path names rest (dictInsert acc nm
        ⟨nm, pathjoin path nm, fr.compression, fr.uncompressed_size,
         fr.compressed_size, fr.sha1⟩)

/-- Constructor `Directory.__init__`, indexed by a recursion-depth budget: Python has no
guard of its own, so the budget stands for whatever ambient call-depth limit
the run is granted; exhausting it is `recursionError`. -/
def decodeDir : Nat → Bytes → List (Nat × Nat) → Str → Str → Nat →
    Except FormatError Directory
  | 0, _, _, _, _, _ => .error .recursionError
  | fuel + 1, data, fs, name, parentPath, block_index => do
      let (dents, fents, names) ← parseDirBlock data fs block_index
      let path := pathjoin parentPath name
      let dirs ← buildDirs (fun nm bidx => decodeDir fuel data fs nm path bidx)
        names dents []
      let files ← buildFiles path names fents []
      .ok (.mk name path dirs files)

/-- The decoded state of `Filesystem.__init__`. -/
structure Filesystem where
  index : Archive
  data : Option Archive
  root : Directory

/-- Constructor `Filesystem.__init__`: decode the index archive, the optional data
archive, and eagerly build the whole tree from `root_dir_index`. -/
def loadFilesystem (fuel : Nat) (indexData : Bytes) (dataData : Option Bytes) :
    Except FormatError Filesystem := do
  let idx ← decodeArchive indexData
  let dat ← match dataData with
    | none => pure none
    | some d => do pure (some (← decodeArchive d))
  let rdi ← match idx.root_dir_index with
    | some i => pure i
    | none => .error .attributeError
  let root ← decodeDir fuel indexData idx.fs [] [] rdi
  .ok ⟨idx, dat, root⟩

/-- Method `Filesystem.__getitem__`. -/
def Filesystem.getitem (fs : Filesystem) (p : Option Str) : Except LookupError FsNode :=
  fs.root.getitem p

/-- The possible outcomes of `File.read`. -/
inductive ReadResult where
| bytes (b : Bytes)       -- a returned value
| pyNone                  -- fell through the compression dispatch: returns `None`
| keyError                -- `KeyError`: `data.blocks[self.sha1]` missing
| attributeError          -- `AttributeError`: the data archive has no `blocks`
| indexError              -- `IndexError`: `data.fs[index]` out of range
| typeError               -- `raise NotImplemented(...)`: NotImplemented is not callable
| structError             -- `struct.pack('<Q', …)` given a value ≥ 2^64
| lzmaError               -- the LZMA decompressor raised
| fileNotFoundError       -- no `.archive` file
deriving DecidableEq, Repr

/-- The reconstructed stream of the compression-5 branch:
`contents[:5] + struct.pack('<Q', self.uncompressed_size) + contents[5:]`. -/
def lzmaStream (contents : Bytes) (uncompressed_size : Nat) : Bytes :=
  contents.take 5 ++ leEnc 8 uncompressed_size ++ contents.drop 5

/-- Method `File.read`, with the `lzma` decompressor abstracted as `lzmaDec`
(`none` = the decompressor raised).  `dataArx` is `self.fs.data` and `raw`
the content of the `.archive` file it was decoded from. -/
def File.read (lzmaDec : Bytes → Option Bytes) (f : File) (dataArx : Option Archive)
    (raw : Bytes) : ReadResult :=
  match dataArx with
  | none => .fileNotFoundError
  | some a =>
    match a.blocks with
    | none => .attributeError
    | some blocks =>
      match lookupB blocks f.sha1 with
      | none => .keyError
      | some (index, _filesize) =>
        match a.fs.get? index with
        | none => .indexError
        | some (offset, blocksize) =>
          let contents := (raw.drop offset).take blocksize
          if f.compression = 1 then .bytes contents
          else if f.compression = 3 then .typeError
          else if f.compression = 5 then
            if f.uncompressed_size < 2 ^ 64 then
              match lzmaDec (lzmaStream contents f.uncompressed_size) with
              | some out => .bytes out
              | none => .lzmaError
            else .structError
          else .pyNone

/-! ## Concrete fixtures used by witnesses and counterexamples -/

def lit (s : String) : Str := s.data

/-- Trees `T2 = T1` plus one file `f` at depth 2 (inside `a/b`): exercises the
lost `verbose` flag of `diff`'s recursive call. -/
def fNew : File := ⟨lit "f", lit "a/b/f", 1, 0, 0, []⟩

def bSub1 : Directory := .mk (lit "b") (lit "a/b") [] []

def bSub2 : Directory := .mk (lit "b") (lit "a/b") [] [(lit "f", fNew)]

def aSub1 : Directory := .mk (lit "a") (lit "a") [(lit "b", bSub1)] []

def aSub2 : Directory := .mk (lit "a") (lit "a") [(lit "b", bSub2)] []

def tree1 : Directory := .mk [] [] [(lit "a", aSub1)] []

def tree2 : Directory := .mk [] [] [(lit "a", aSub2)] []

/-- Trees `U2 = U1` plus one file `g` directly inside subdirectory `d`. -/
def gNew : File := ⟨lit "g", lit "d/g", 1, 0, 0, []⟩

def dSub1 : Directory := .mk (lit "d") (lit "d") [] []

def dSub2 : Directory := .mk (lit "d") (lit "d") [] [(lit "g", gNew)]

def uTree1 : Directory := .mk [] [] [(lit "d", dSub1)] []

def uTree2 : Directory := .mk [] [] [(lit "d", dSub2)] []

/-- Trees `V2 = V1` plus one file `f` three levels down (`d/e/g/f`): deep enough
that the summary triple for `d` is an aggregate, not the recursive totals. -/
def fDeep : File := ⟨lit "f", lit "d/e/g/f", 1, 0, 0, []⟩

def gSub1 : Directory := .mk (lit "g") (lit "d/e/g") [] []

def gSub2 : Directory := .mk (lit "g") (lit "d/e/g") [] [(lit "f", fDeep)]

def eSub1 : Directory := .mk (lit "e") (lit "d/e") [(lit "g", gSub1)] []

def eSub2 : Directory := .mk (lit "e") (lit "d/e") [(lit "g", gSub2)] []

def dDeep1 : Directory := .mk (lit "d") (lit "d") [(lit "e", eSub1)] []

def dDeep2 : Directory := .mk (lit "d") (lit "d") [(lit "e", eSub2)] []

def vTree1 : Directory := .mk [] [] [(lit "d", dDeep1)] []

def vTree2 : Directory := .mk [] [] [(lit "d", dDeep2)] []

/-- A data archive with one stored block: block 0 spans `[offset 2, size 3]`
of the `.archive` file, and the hash table maps `shaA` to it. -/
def shaA : Bytes := List.replicate 20 7

def arxData : Archive := ⟨[(2, 3)], some [(shaA, 0, 3)], none⟩

def rawBytes : Bytes := [9, 8, 7, 6, 5]

def fStored : File := ⟨lit "x", lit "x", 1, 3, 3, shaA⟩

/-- Same stored block, but the declared uncompressed size (7) disagrees with
the stored block's size (3): `read` performs no check. -/
def fSizeLie : File := ⟨lit "x", lit "x", 1, 7, 3, shaA⟩

/-- Unknown compression code 2 and unimplemented code 3. -/
def fComp2 : File := ⟨lit "x", lit "x", 2, 3, 3, shaA⟩

def fComp3 : File := ⟨lit "x", lit "x", 3, 3, 3, shaA⟩

/-- Compression-5 fixture: block 0 spans the whole 6-byte archive file. -/
def arxData5 : Archive := ⟨[(0, 6)], some [(shaA, 0, 6)], none⟩

def rawBytes5 : Bytes := [1, 2, 3, 4, 5, 6]

def fComp5 : File := ⟨lit "x", lit "x", 5, 4, 6, shaA⟩

/-- A hash table whose local block index (9) exceeds the block-table length. -/
def arxBadIdx : Archive := ⟨[(2, 3)], some [(shaA, 9, 3)], none⟩

/-- An `.lzma`-alone conforming dummy decompressor: its output length is the
little-endian size field at bytes 5..12 of the stream (the contract every
standard alone-format decoder satisfies on success). -/
def wDec (s : Bytes) : Option Bytes := some (List.replicate (leDec ((s.drop 5).take 8)) 0)

/-- A `.index` container whose root directory record lists itself as its own
child (`child_block_index` = its own block 1): the malformed
self-referential input of the recursion-guard claim.  Layout: 556-byte
header, two block-table entries, the `b'XDIA'` root block at 588, the
directory record at 604. -/
def cycIndex : Bytes :=
  [80, 65, 67, 75] ++ leEnc 4 1 ++ List.replicate 512 0 ++ leEnc 8 622 ++ leEnc 8 0
    ++ leEnc 8 556 ++ leEnc 4 2 ++ leEnc 4 0 ++ leEnc 4 0
    ++ leEnc 8 588 ++ leEnc 8 16 ++ leEnc 8 604 ++ leEnc 8 18
    ++ [88, 68, 73, 65] ++ leEnc 4 1 ++ leEnc 4 0 ++ leEnc 4 1
    ++ leEnc 4 1 ++ leEnc 4 0 ++ leEnc 4 0 ++ leEnc 4 1 ++ [97, 0]

def cycFs : List (Nat × Nat) := [(588, 16), (604, 18)]

/-- A container header declaring an empty block table but root block index 0. -/
def oobIndex : Bytes :=
  [80, 65, 67, 75] ++ leEnc 4 1 ++ List.replicate 512 0 ++ leEnc 8 556 ++ leEnc 8 0
    ++ leEnc 8 556 ++ leEnc 4 0 ++ leEnc 4 0 ++ leEnc 4 0

/-- A container whose `b'CRAA'` root block names hash-table block index 5,
beyond its one-entry block table. -/
def oobCraa : Bytes :=
  [80, 65, 67, 75] ++ leEnc 4 1 ++ List.replicate 512 0 ++ leEnc 8 588 ++ leEnc 8 0
    ++ leEnc 8 556 ++ leEnc 4 1 ++ leEnc 4 0 ++ leEnc 4 0
    ++ leEnc 8 572 ++ leEnc 8 16
    ++ [67, 82, 65, 65] ++ leEnc 4 1 ++ leEnc 4 0 ++ leEnc 4 5

/-! ## Shared lemmas -/

theorem leEnc_length (w : Nat) : ∀ n, (leEnc w n).length = w := by
  induction w with
  | zero => intro n; rfl
  | succ k ih => intro n; simp [leEnc, ih]

theorem leDec_leEnc (w : Nat) : ∀ n, leDec (leEnc w n) = n % 2 ^ (8 * w) := by
  induction w with
  | zero => intro n; simp [leEnc, leDec, Nat.mod_one]
  | succ k ih =>
      intro n
      have h : (2 : Nat) ^ (8 * (k + 1)) = 256 * 2 ^ (8 * k) := by
        rw [Nat.mul_succ, Nat.pow_add]; ring
      have hstep : leDec (leEnc (k + 1) n) = n % 256 + 256 * leDec (leEnc k (n / 256)) := rfl
      rw [hstep, ih, h, Nat.mod_mul]

theorem lookupA_isSome_of_mem {β : Type} {l : List (Str × β)} {e : Str × β}
    (h : e ∈ l) : (lookupA l e.1).isSome := by
  induction l with
  | nil => cases h
  | cons hd tl ih =>
      rcases List.mem_cons.mp h with h1 | h1
      · rw [← h1]; simp [lookupA]
      · by_cases hk : hd.1 = e.1 <;> simp [lookupA, hk, ih h1]

theorem lookupA_eq_of_nodup {β : Type} {l : List (Str × β)} {k : Str} {v : β}
    (hnd : (l.map Prod.fst).Nodup) (h : (k, v) ∈ l) : lookupA l k = some v := by
  induction l with
  | nil => cases h
  | cons hd tl ih =>
      rw [List.map_cons, List.nodup_cons] at hnd
      rcases List.mem_cons.mp h with h1 | h1
      · rw [← h1]; simp [lookupA]
      · have hk : ¬ hd.1 = k := by
          intro hEq
          exact hnd.1 (by rw [hEq]; exact List.mem_map.mpr ⟨(k, v), h1, rfl⟩)
        simp [lookupA, hk, ih hnd.2 h1]

/-! ## C10: empty path lookup is the identity -/

/-- C10: for every Directory `d`, `d[...]` with an absent (`None`) or empty
path returns `d` itself, and `Filesystem.__getitem__` with no path returns
the root directory. -/
theorem C10_empty_path_identity :
    (∀ d : Directory, d.getitem none = .ok (.dir d)) ∧
    (∀ d : Directory, d.getitem (some []) = .ok (.dir d)) ∧
    (∀ fsys : Filesystem, fsys.getitem none = .ok (.dir fsys.root)) := by
  refine ⟨fun d => ?_, fun d => ?_, fun fsys => ?_⟩
  · cases d; rfl
  · cases d; rfl
  · show fsys.root.getitem none = _
    cases h : fsys.root; rw [← h]; cases fsys.root; rfl

/-! ## C4: compression codes 3 and ≠ 1,3,5 -/

/-- C4 (code bug): with a resolvable hash, compression code 2 makes `read`
fall off the end of the dispatch and return Python `None` — a silent
non-error value, not an "unknown compression type" error; and compression
code 3 raises a `TypeError` (from calling the non-callable `NotImplemented`
singleton), not the intended unsupported-compression error. -/
theorem C4_compression_dispatch :
    File.read wDec fComp2 (some arxData) rawBytes = .pyNone ∧
    File.read wDec fComp3 (some arxData) rawBytes = .typeError :=
  ⟨rfl, rfl⟩

/-! ## C5: compression code 1 returns the raw block -/

/-- C5 (amended): with a resolvable hash and compression code 1, `read`
returns the stored block's bytes unchanged; its length equals the declared
`uncompressed_size` provided the block's table size matches that declared
size and the archive file actually holds the block (the code itself
performs no such check). -/
theorem C5_read_raw_block (lzmaDec : Bytes → Option Bytes) (f : File) (a : Archive)
    (raw : Bytes) (blocks : List (Bytes × Nat × Nat)) (idx fsize offset blocksize : Nat)
    (hb : a.blocks = some blocks)
    (hk : lookupB blocks f.sha1 = some (idx, fsize))
    (hi : a.fs[idx]? = some (offset, blocksize))
    (hc : f.compression = 1) :
    File.read lzmaDec f (some a) raw = .bytes ((raw.drop offset).take blocksize) ∧
    (blocksize = f.uncompressed_size → offset + blocksize ≤ raw.length →
      ((raw.drop offset).take blocksize).length = f.uncompressed_size) := by
  constructor
  · simp only [File.read, List.get?_eq_getElem?, hb, hk, hi, hc]
    norm_num
  · intro hsz hfits
    simp only [List.length_take, List.length_drop]
    omega

/-- C5 counterexample: the same resolvable block read through a `File` whose
declared uncompressed size is 7 returns the 3 raw bytes unchanged — the
result length does not equal `uncompressed_size`. -/
theorem C5_counterexample :
    File.read wDec fSizeLie (some arxData) rawBytes = .bytes [7, 6, 5] ∧
    fSizeLie.compression = 1 ∧
    ¬ ([7, 6, 5] : Bytes).length = fSizeLie.uncompressed_size :=
  ⟨rfl, rfl, by decide⟩

theorem C5_witness :
    File.read wDec fStored (some arxData) rawBytes = .bytes [7, 6, 5] ∧
    ([7, 6, 5] : Bytes).length = fStored.uncompressed_size := by
  have h := C5_read_raw_block wDec fStored arxData rawBytes [(shaA, 0, 3)] 0 3 2 3
    rfl rfl rfl rfl
  exact ⟨h.1, h.2 rfl (by decide)⟩

/-! ## C2: compression code 5, the length-field-less LZMA stream -/

/-- C2: with a resolvable hash and compression code 5, `read` returns the
decompression of `contents[:5] + pack('<Q', uncompressed_size) +
contents[5:]`, for any decompressor; and for any decoder satisfying the
`.lzma` alone-format contract (successful output length = the stream's
little-endian 64-bit length field at bytes 5..12), a successful result is
exactly `uncompressed_size` bytes long. -/
theorem C2_read_lzma (lzmaDec : Bytes → Option Bytes) (f : File) (a : Archive)
    (raw : Bytes) (blocks : List (Bytes × Nat × Nat)) (idx fsize offset blocksize : Nat)
    (hb : a.blocks = some blocks)
    (hk : lookupB blocks f.sha1 = some (idx, fsize))
    (hi : a.fs[idx]? = some (offset, blocksize))
    (hc : f.compression = 5)
    (hsz : f.uncompressed_size < 2 ^ 64)
    (hcontract : ∀ s out, lzmaDec s = some out → 13 ≤ s.length →
      out.length = leDec ((s.drop 5).take 8))
    (hlen : 5 ≤ ((raw.drop offset).take blocksize).length) :
    File.read lzmaDec f (some a) raw =
      (match lzmaDec (lzmaStream ((raw.drop offset).take blocksize) f.uncompressed_size) with
       | some out => ReadResult.bytes out
       | none => ReadResult.lzmaError) ∧
    ∀ out, lzmaDec (lzmaStream ((raw.drop offset).take blocksize) f.uncompressed_size)
        = some out → out.length = f.uncompressed_size := by
  constructor
  · simp only [File.read, List.get?_eq_getElem?, hb, hk, hi, hc, if_pos hsz]
    norm_num
  · intro out hout
    set contents := (raw.drop offset).take blocksize with hcon
    have htk : (contents.take 5).length = 5 := by
      simp only [List.length_take]; omega
    have h13 : 13 ≤ (lzmaStream contents f.uncompressed_size).length := by
      simp only [lzmaStream, List.length_append, leEnc_length, htk]
      omega
    have hdec := hcontract _ out hout h13
    have hdrop : (lzmaStream contents f.uncompressed_size).drop 5
        = leEnc 8 f.uncompressed_size ++ contents.drop 5 := by
      rw [lzmaStream, List.append_assoc]
      exact List.drop_left' htk
    have htake : ((lzmaStream contents f.uncompressed_size).drop 5).take 8
        = leEnc 8 f.uncompressed_size := by
      rw [hdrop]
      exact List.take_left' (leEnc_length 8 f.uncompressed_size)
    rw [hdec, htake, leDec_leEnc]
    have h64 : 8 * 8 = 64 := rfl
    rw [h64]
    exact Nat.mod_eq_of_lt hsz

theorem C2_witness :
    File.read wDec fComp5 (some arxData5) rawBytes5 = .bytes (List.replicate 4 0) ∧
    (List.replicate 4 0 : Bytes).length = fComp5.uncompressed_size := by
  have h := C2_read_lzma wDec fComp5 arxData5 rawBytes5 [(shaA, 0, 6)] 0 6 0 6
    rfl rfl rfl rfl (by decide)
    (fun s out hout h13 => by
      simp only [wDec, Option.some.injEq] at hout
      rw [← hout, List.length_replicate])
    (by decide)
  exact ⟨h.1, h.2 (List.replicate 4 0) rfl⟩

/-! ## C8: block-table indices are bounds-checked everywhere -/

theorem except_bind_ok {ε α β : Type} (a : α) (f : α → Except ε β) :
    (Except.ok a >>= f) = f a := rfl

theorem except_bind_err {ε α β : Type} (e : ε) (f : α → Except ε β) :
    ((Except.error e : Except ε α) >>= f) = Except.error e := rfl

theorem except_pure {ε α : Type} (a : α) : (pure a : Except ε α) = Except.ok a := rfl

/-- C8: every block index the decoder or content resolver uses — the root
block index, the `b'CRAA'` hash-table block index, a directory record's
block index, and the hash table's local index at read time — is rejected
with an index error (the model of the spec's `FormatError`) when it is at or
past the end of the block table; `getBlock` errors exactly on out-of-range
indices, so no out-of-bounds read of the table can occur. -/
theorem C8_block_index_bounds :
    (∀ (fs : List (Nat × Nat)) (i : Nat),
      getBlock fs i = .error .indexError ↔ fs.length ≤ i) ∧
    (∀ (data : Bytes) (h : Header) (fstab : List (Nat × Nat)),
      parseHeader data = .ok h → parseFsTable data h.fs_offset h.fs_count = .ok fstab →
      fstab.length ≤ h.root_index → decodeArchive data = .error .indexError) ∧
    (∀ (data : Bytes) (h : Header) (fstab : List (Nat × Nat)) (off bsize v2 fA fB : Nat),
      parseHeader data = .ok h → parseFsTable data h.fs_offset h.fs_count = .ok fstab →
      getBlock fstab h.root_index = .ok (off, bsize) →
      parseRootHeader data off = .ok (craaMagic, v2, fA, fB) →
      fstab.length ≤ fB → decodeArchive data = .error .indexError) ∧
    (∀ (fuel : Nat) (data : Bytes) (fs : List (Nat × Nat)) (name ppath : Str) (bidx : Nat),
      fs.length ≤ bidx → decodeDir (fuel + 1) data fs name ppath bidx = .error .indexError) ∧
    (∀ (lz : Bytes → Option Bytes) (f : File) (a : Archive) (raw : Bytes)
        (blocks : List (Bytes × Nat × Nat)) (idx fsize : Nat),
      a.blocks = some blocks → lookupB blocks f.sha1 = some (idx, fsize) →
      a.fs.length ≤ idx → File.read lz f (some a) raw = .indexError) := by
  have hget : ∀ (fs : List (Nat × Nat)) (i : Nat), fs.length ≤ i →
      getBlock fs i = .error .indexError := by
    intro fs i hle
    unfold getBlock
    rw [List.get?_eq_none.mpr hle]
  refine ⟨fun fs i => ?_, fun data h fstab hh hf hle => ?_,
    fun data h fstab off bsize v2 fA fB hh hf hg hroot hle => ?_,
    fun fuel data fs name ppath bidx hle => ?_,
    fun lz f a raw blocks idx fsize hb hk hle => ?_⟩
  · constructor
    · intro herr
      by_contra hlt
      push_neg at hlt
      unfold getBlock at herr
      rw [List.get?_eq_get hlt] at herr
      cases herr
    · exact hget fs i
  · simp only [decodeArchive, hh, except_bind_ok, hf, hget fstab h.root_index hle,
      except_bind_err]
  · have hgb : getBlock fstab fB = .error .indexError := hget fstab fB hle
    simp only [decodeArchive, hh, except_bind_ok, hf, hg, hroot, if_pos rfl, hgb,
      except_bind_err, if_true]
  · have hgb : getBlock fs bidx = .error .indexError := hget fs bidx hle
    simp only [decodeDir, parseDirBlock, hgb, except_bind_err]
  · simp only [File.read, List.get?_eq_getElem?, hb, hk, List.getElem?_eq_none hle]

theorem C8_witness :
    getBlock [] 0 = .error .indexError ∧
    decodeArchive oobIndex = .error .indexError ∧
    decodeArchive oobCraa = .error .indexError ∧
    decodeDir 1 cycIndex [] [] [] 0 = .error .indexError ∧
    File.read wDec fStored (some arxBadIdx) rawBytes = .indexError := by
  refine ⟨(C8_block_index_bounds.1 [] 0).mpr (by decide), ?_, ?_, ?_, ?_⟩
  · exact C8_block_index_bounds.2.1 oobIndex
      ⟨[80, 65, 67, 75], 1, 556, 0, 556, 0, 0, 0⟩ [] rfl rfl (by decide)
  · exact C8_block_index_bounds.2.2.1 oobCraa
      ⟨[80, 65, 67, 75], 1, 588, 0, 556, 1, 0, 0⟩ [(572, 16)] 572 16 1 0 5
      rfl rfl rfl rfl (by decide)
  · exact C8_block_index_bounds.2.2.2.1 0 cycIndex [] [] [] 0 (by decide)
  · exact C8_block_index_bounds.2.2.2.2 wDec fStored arxBadIdx rawBytes
      [(shaA, 9, 3)] 9 3 rfl rfl (by decide)

/-! ## C9: no recursion guard in `Directory.__init__` -/

/-- C9 (code bug): on the malformed container whose root directory record
lists its own block as a child, `Directory.__init__` recurses once per level
for EVERY recursion-depth budget — the construction has no defensive bound
of its own, so it exhausts any depth limit instead of detecting the cycle
(in CPython it runs to the interpreter's ambient `RecursionError`). -/
theorem C9_unbounded_recursion :
    (∀ (fuel : Nat) (name ppath : Str),
      decodeDir fuel cycIndex cycFs name ppath 1 = .error .recursionError) ∧
    (∀ fuel : Nat, loadFilesystem fuel cycIndex none = .error .recursionError) := by
  have main : ∀ (fuel : Nat) (name ppath : Str),
      decodeDir fuel cycIndex cycFs name ppath 1 = .error .recursionError := by
    intro fuel
    induction fuel with
    | zero => intro name ppath; rfl
    | succ n ih =>
        intro name ppath
        have hp : parseDirBlock cycIndex cycFs 1 = .ok ([(0, 1)], [], [97, 0]) := by rfl
        have hn : getName [97, 0] 0 = .ok ['a'] := by rfl
        simp only [decodeDir, hp, except_bind_ok, buildDirs, hn, ih, except_bind_err]
  have ha : decodeArchive cycIndex = .ok ⟨cycFs, none, some 1⟩ := by rfl
  refine ⟨main, fun fuel => ?_⟩
  simp only [loadFilesystem, ha, except_pure, except_bind_ok, main, except_bind_err]

/-! ## C6: path-lookup error propagation -/

theorem splitOnce_head_no_sep (sep : Char) :
    ∀ (l h : Str) (t : Option Str), splitOnce sep l = (h, t) → sep ∉ h := by
  intro l
  induction l with
  | nil => intro h t hs; cases hs; simp
  | cons c cs ih =>
      intro h t hs
      by_cases hc : c = sep
      · rw [splitOnce, if_pos hc] at hs
        cases hs; simp
      · rw [splitOnce, if_neg hc] at hs
        rcases hsp : splitOnce sep cs with ⟨h', t'⟩
        rw [hsp] at hs
        have hh : h = c :: h' := (congrArg Prod.fst hs).symm
        intro hmem
        rw [hh] at hmem
        rcases List.mem_cons.mp hmem with h1 | h1
        · exact hc h1.symm
        · exact ih h' t' hsp h1

theorem splitOnce_tail_some_sep (sep : Char) :
    ∀ (l h r : Str), splitOnce sep l = (h, some r) → sep ∈ l := by
  intro l
  induction l with
  | nil => intro h r hs; cases hs
  | cons c cs ih =>
      intro h r hs
      by_cases hc : c = sep
      · exact List.mem_cons.mpr (Or.inl hc.symm)
      · rw [splitOnce, if_neg hc] at hs
        rcases hsp : splitOnce sep cs with ⟨h', t'⟩
        rw [hsp] at hs
        have ht : t' = some r := congrArg Prod.snd hs
        subst ht
        exact List.mem_cons.mpr (Or.inr (ih h' r hsp))

theorem splitAll_no_sep (sep : Char) : ∀ l : Str, sep ∉ l → splitAll sep l = [l] := by
  intro l
  induction l with
  | nil => intro _; rfl
  | cons c cs ih =>
      intro hmem
      have hc : ¬ c = sep := fun hEq => hmem (List.mem_cons.mpr (Or.inl hEq.symm))
      have hcs : sep ∉ cs := fun hEq => hmem (List.mem_cons.mpr (Or.inr hEq))
      rw [splitAll, ih hcs]
      simp [hc]

theorem normpath_eval_no_sep (p : Str) (h : '/' ∉ p) :
    normpath p = if p = [] ∨ p = ['.'] then ['.'] else p := by
  by_cases hp : p = []
  · subst hp; simp [normpath]
  · have hsw : startswith ['/'] p = false := by
      cases p with
      | nil => exact absurd rfl hp
      | cons c cs =>
          have hc : ¬ c = '/' := fun hEq => h (List.mem_cons.mpr (Or.inl hEq.symm))
          simp [startswith, List.isPrefixOf]
          intro hEq; exact absurd hEq.symm hc
    by_cases h1 : p = ['.']
    · subst h1; rfl
    · rw [normpath, if_neg hp]
      simp only [hsw, splitAll_no_sep '/' p h]
      simp [h1, hp, List.intercalate]

theorem normpath_no_slash (p : Str) (h : '/' ∉ p) : '/' ∉ normpath p := by
  rw [normpath_eval_no_sep p h]
  by_cases hc : p = [] ∨ p = ['.']
  · simp [hc]
  · simpa [hc] using h

mutual
theorem getitem_err_aux : (d : Directory) → (p : Str) → (e : LookupError) →
    d.getitem (some p) = .error e →
    '/' ∉ e.file ∧
      e.msg = (if p = e.file then couldNotFind e.file else couldNotFindIn e.file p)
  | .mk nm pa ds fs, p, e, h => by
      rw [Directory.getitem] at h
      by_cases hp : p = []
      · rw [if_pos hp] at h; exact Except.noConfusion h
      · rw [if_neg hp] at h
        rcases hsp : splitOnce '/' (normpath p) with ⟨head, tail⟩
        rw [hsp] at h
        change rewriteErr p (getChild ds fs head tail) = Except.error e at h
        cases hgc : getChild ds fs head tail with
        | ok v =>
            rw [hgc] at h
            simp only [rewriteErr] at h
            exact Except.noConfusion h
        | error e0 =>
            rw [hgc] at h
            simp only [rewriteErr] at h
            have haux := getChild_err_aux ds fs head tail e0 hgc
              (splitOnce_head_no_sep '/' (normpath p) head tail hsp)
            by_cases hpe : p = e0.file
            · rw [if_neg (by simp [hpe])] at h
              have he : e = e0 := (Except.error.inj h).symm
              subst he
              rcases haux.2 with hm | ⟨r, htr, hrne, hm⟩
              · exact ⟨haux.1, by rw [if_pos hpe, hm]⟩
              · exfalso
                have hslash : '/' ∉ p := hpe ▸ haux.1
                exact normpath_no_slash p hslash
                  (splitOnce_tail_some_sep '/' (normpath p) head r (htr ▸ hsp))
            · rw [if_pos (by simp [hpe])] at h
              have he : e = ⟨e0.file, couldNotFindIn e0.file p, e0.rewrites + 1⟩ :=
                (Except.error.inj h).symm
              subst he
              exact ⟨haux.1, by rw [if_neg hpe]⟩
theorem getChild_err_aux : (ds : List (Str × Directory)) → (fs : List (Str × File)) →
    (head : Str) → (tail : Option Str) → (e : LookupError) →
    getChild ds fs head tail = .error e → '/' ∉ head →
    '/' ∉ e.file ∧
      (e.msg = couldNotFind e.file ∨
        ∃ r, tail = some r ∧ r ≠ e.file ∧ e.msg = couldNotFindIn e.file r)
  | [], fs, head, tail, e, h, hh => by
      rw [getChild] at h
      cases hlf : lookupA fs head with
      | some f => rw [hlf] at h; exact Except.noConfusion h
      | none =>
          rw [hlf] at h
          have he : e = ⟨head, couldNotFind head, 0⟩ := (Except.error.inj h).symm
          subst he
          exact ⟨hh, Or.inl rfl⟩
  | (n, d) :: rest, fs, head, tail, e, h, hh => by
      rw [getChild] at h
      by_cases hn : n = head
      · rw [if_pos hn] at h
        cases tail with
        | none =>
            rcases d with ⟨nm2, pa2, ds2, fs2⟩
            exact Except.noConfusion h
        | some r =>
            have haux := getitem_err_aux d r e h
            refine ⟨haux.1, ?_⟩
            by_cases hre : r = e.file
            · exact Or.inl (by rw [haux.2, if_pos hre])
            · exact Or.inr ⟨r, rfl, hre, by rw [haux.2, if_neg hre]⟩
      · rw [if_neg hn] at h
        exact getChild_err_aux rest fs head tail e h hh
end

/-- C6 (amended): a failed lookup's fully propagated error reports the full
originally requested path — its message is `"Could not find <component> in
path <requested path>"` whenever the requested path differs from the failing
component, and `"Could not find <component>"` (the component being the whole
requested path) otherwise.  The "rewritten exactly once" part of the claim
is corrected by `C6_counterexample`: the message is rewritten at every
ancestor frame whose path differs from the failing component. -/
theorem C6_error_reports_full_path (d : Directory) (p : Str) (e : LookupError)
    (h : d.getitem (some p) = .error e) :
    e.msg = (if p = e.file then couldNotFind e.file else couldNotFindIn e.file p) :=
  (getitem_err_aux d p e h).2

/-- C6 counterexample: looking up `d/b/c` (with `d` present and `b` missing)
rewrites the message twice — once in the `d/b/c` frame and once in the inner
`b/c` frame — not exactly once. -/
theorem C6_counterexample :
    uTree1.getitem (some (lit "d/b/c")) =
      .error ⟨lit "b", lit "Could not find b in path d/b/c", 2⟩ ∧
    (2 : Nat) ≠ 1 :=
  ⟨rfl, by decide⟩

theorem C6_witness :
    lit "Could not find b in path d/b/c" =
      (if lit "d/b/c" = lit "b" then couldNotFind (lit "b")
       else couldNotFindIn (lit "b") (lit "d/b/c")) := by
  have h := C6_error_reports_full_path uTree1 (lit "d/b/c")
    ⟨lit "b", lit "Could not find b in path d/b/c", 2⟩ rfl
  simpa using h

/-! ## C1 and C3: diff in verbose and summary mode -/

theorem mem_commonD_true :
    ∀ (ds1 ds2 : List (Str × Directory)) (n : Str) (s1 s2 : Directory) (e : Event),
      lookupA ds1 n = some s1 → lookupA ds2 n = some s2 →
      e ∈ diff false s1 s2 → e ∈ commonD true ds1 ds2 := by
  intro ds1
  induction ds1 with
  | nil => intro ds2 n s1 s2 e h1; cases h1
  | cons hd rest ih =>
      intro ds2 n s1 s2 e h1 h2 hm
      rcases hd with ⟨k, v⟩
      rw [commonD]
      by_cases hk : k = n
      · rw [lookupA, if_pos hk] at h1
        cases h1
        rw [hk, h2]
        exact List.mem_append.mpr (Or.inl (by simpa using hm))
      · rw [lookupA, if_neg hk] at h1
        exact List.mem_append.mpr (Or.inr (ih ds2 n s1 s2 e h1 h2 hm))

/-- C1 (amended): in verbose mode, for each directory name present in both
trees, `diff` yields directly every event of the SUMMARY-mode (non-verbose)
diff of the two subtrees — the `verbose` flag is not forwarded by the
recursive call, so only differences among a common directory's immediate
children appear as their own events, while strictly deeper differences
arrive pre-aggregated (see `C1_counterexample`). -/
theorem C1_verbose_yields_summary_events (t1 t2 : Directory) (n : Str)
    (s1 s2 : Directory) (e : Event)
    (h1 : lookupA t1.dirs n = some s1) (h2 : lookupA t2.dirs n = some s2)
    (hm : e ∈ diff false s1 s2) : e ∈ diff true t1 t2 := by
  rcases t1 with ⟨nm, pa, ds, fs⟩
  rw [diff]
  have hc := mem_commonD_true ds t2.dirs n s1 s2 e h1 h2 hm
  simp only [List.mem_append]
  tauto

/-- C1 counterexample: `tree2` adds one file at depth 2 below the common
directory `a`; the spec's fully recursive verbose diff of the `a` subtrees
contains the file-addition event, but the code's verbose diff of the trees
emits only an aggregated change event, so a difference two levels below a
common directory does NOT appear as its own addition event. -/
theorem C1_counterexample :
    lookupA tree1.dirs (lit "a") = some aSub1 ∧
    lookupA tree2.dirs (lit "a") = some aSub2 ∧
    diffFull aSub1 aSub2 = [Event.addedFile fNew] ∧
    diff true tree1 tree2 = [Event.changedDir bSub1 bSub2 0 1 0] ∧
    Event.addedFile fNew ∉ diff true tree1 tree2 := by
  refine ⟨rfl, rfl, rfl, rfl, ?_⟩
  rw [show diff true tree1 tree2 = [Event.changedDir bSub1 bSub2 0 1 0] from rfl]
  intro hmem
  exact Event.noConfusion (List.mem_singleton.mp hmem)

theorem C1_witness :
    Event.changedDir bSub1 bSub2 0 1 0 ∈ diff true tree1 tree2 :=
  C1_verbose_yields_summary_events tree1 tree2 (lit "a") aSub1 aSub2
    (Event.changedDir bSub1 bSub2 0 1 0) rfl rfl (List.mem_singleton_self _)

theorem commonF_no_changedDir :
    ∀ fs1 fs2 : List (Str × File), (commonF fs1 fs2).countP Event.isChangedDir = 0 := by
  intro fs1
  induction fs1 with
  | nil => intro fs2; rfl
  | cons hd rest ih =>
      intro fs2
      rcases hd with ⟨n, f1⟩
      rw [commonF, List.countP_append, ih fs2]
      cases hl : lookupA fs2 n with
      | none => rfl
      | some f2 =>
          by_cases hs : f1.sha1 ≠ f2.sha1
          · simp [hs, Event.isChangedDir]
          · simp [hs]

theorem commonD_false_count :
    ∀ ds1 ds2 : List (Str × Directory),
      (commonD false ds1 ds2).countP Event.isChangedDir
        = ds1.countP (fun en =>
            match lookupA ds2 en.1 with
            | some s2 => decide (diffcount en.2 s2 ≠ ((0, 0, 0) : Nat × Nat × Nat))
            | none => false) := by
  intro ds1
  induction ds1 with
  | nil => intro ds2; rfl
  | cons hd rest ih =>
      intro ds2
      rcases hd with ⟨n, s1⟩
      rw [commonD, List.countP_append, ih ds2, List.countP_cons, Nat.add_comm]
      congr 1
      cases hl : lookupA ds2 n with
      | none => simp only [hl]; rfl
      | some s2 =>
          simp only [hl]
          rcases hce : countEvents (diff true s1 s2) with ⟨r, a, c⟩
          have hdc : diffcount s1 s2 = (r, a, c) := hce
          simp only [hce]
          by_cases hpos : r > 0 ∨ a > 0 ∨ c > 0
          · have hne2 : diffcount s1 s2 ≠ ((0, 0, 0) : Nat × Nat × Nat) := by
              rw [hdc]
              intro hEq
              have hr : r = 0 := congrArg Prod.fst hEq
              have ha : a = 0 := congrArg (fun x => x.2.1) hEq
              have hc2 : c = 0 := congrArg (fun x => x.2.2) hEq
              omega
            have hne3 : ((r, a, c) : Nat × Nat × Nat) ≠ 0 := by
              intro hEq
              have hr : r = 0 := congrArg Prod.fst hEq
              have ha : a = 0 := congrArg (fun x => x.2.1) hEq
              have hc2 : c = 0 := congrArg (fun x => x.2.2) hEq
              omega
            simp [hpos, Event.isChangedDir, hdc, hne3]
          · have hz : diffcount s1 s2 = ((0, 0, 0) : Nat × Nat × Nat) := by
              rw [hdc]
              have h0 : r = 0 ∧ a = 0 ∧ c = 0 := by omega
              rw [h0.1, h0.2.1, h0.2.2]
            simp [hpos, hz]

theorem mem_commonD_false :
    ∀ (ds1 ds2 : List (Str × Directory)) (n : Str) (s1 s2 : Directory),
      lookupA ds1 n = some s1 → lookupA ds2 n = some s2 →
      diffcount s1 s2 ≠ ((0, 0, 0) : Nat × Nat × Nat) →
      Event.changedDir s1 s2 (diffcount s1 s2).1 (diffcount s1 s2).2.1
        (diffcount s1 s2).2.2 ∈ commonD false ds1 ds2 := by
  intro ds1
  induction ds1 with
  | nil => intro ds2 n s1 s2 h1; cases h1
  | cons hd rest ih =>
      intro ds2 n s1 s2 h1 h2 hne
      rcases hd with ⟨k, v⟩
      rw [commonD]
      by_cases hk : k = n
      · rw [lookupA, if_pos hk] at h1
        cases h1
        subst hk
        refine List.mem_append.mpr (Or.inl ?_)
        simp only [h2]
        rcases hce : countEvents (diff true s1 s2) with ⟨r, a, c⟩
        have hdc : diffcount s1 s2 = (r, a, c) := hce
        have hpos : r > 0 ∨ a > 0 ∨ c > 0 := by
          by_contra hno
          push_neg at hno
          apply hne
          rw [hdc]
          have h0 : r = 0 ∧ a = 0 ∧ c = 0 := by omega
          rw [h0.1, h0.2.1, h0.2.2]
        simp [hce, hpos, hdc]
      · rw [lookupA, if_neg hk] at h1
        exact List.mem_append.mpr (Or.inr (ih ds2 n s1 s2 h1 h2 hne))

theorem commonF_self :
    ∀ (fs1 fs2 : List (Str × File)), (∀ e ∈ fs1, lookupA fs2 e.1 = some e.2) →
      commonF fs1 fs2 = [] := by
  intro fs1
  induction fs1 with
  | nil => intro fs2 _; rfl
  | cons hd rest ih =>
      intro fs2 hlk
      rcases hd with ⟨n, f⟩
      rw [commonF, hlk (n, f) (List.mem_cons_self _ _)]
      simp only [ne_eq, not_true_eq_false, if_neg, List.nil_append]
      exact ih fs2 (fun e he => hlk e (List.mem_cons.mpr (Or.inr he)))

mutual
theorem diff_self_aux : (v : Bool) → (t : Directory) → nodupKeys t = true → diff v t t = []
  | v, .mk nm pa ds fs, h => by
      rw [nodupKeys] at h
      simp only [Bool.and_eq_true, decide_eq_true_eq] at h
      obtain ⟨⟨hnd, hnf⟩, hndl⟩ := h
      rw [diff]
      simp only [Directory.dirs, Directory.files]
      have hrm : (ds.filter (fun e => (lookupA ds e.1).isNone)) = [] := by
        rw [List.filter_eq_nil]
        intro e he
        simp [Option.isNone_iff_eq_none,
          Option.isSome_iff_ne_none.mp (lookupA_isSome_of_mem he)]
      have hrf : (fs.filter (fun e => (lookupA fs e.1).isNone)) = [] := by
        rw [List.filter_eq_nil]
        intro e he
        simp [Option.isNone_iff_eq_none,
          Option.isSome_iff_ne_none.mp (lookupA_isSome_of_mem he)]
      rw [hrm, hrf]
      have hcd : commonD v ds ds = [] :=
        commonD_self_aux v ds ds hndl
          (fun e he => lookupA_eq_of_nodup hnd (by simpa using he))
      have hcf : commonF fs fs = [] :=
        commonF_self fs fs (fun e he => lookupA_eq_of_nodup hnf (by simpa using he))
      rw [hcd, hcf]
      rfl
theorem commonD_self_aux : (v : Bool) → (ds1 ds2 : List (Str × Directory)) →
    nodupKeysL ds1 = true → (∀ e ∈ ds1, lookupA ds2 e.1 = some e.2) →
    commonD v ds1 ds2 = []
  | _, [], _, _, _ => by rw [commonD]
  | v, (n, s1) :: rest, ds2, hnd, hlk => by
      rw [commonD]
      rw [nodupKeysL] at hnd
      simp only [Bool.and_eq_true] at hnd
      have hl : lookupA ds2 n = some s1 := hlk (n, s1) (List.mem_cons_self _ _)
      rw [hl]
      have hrest : commonD v rest ds2 = [] :=
        commonD_self_aux v rest ds2 hnd.2 (fun e he => hlk e (List.mem_cons.mpr (Or.inr he)))
      have hs1 : ∀ v', diff v' s1 s1 = [] := fun v' => diff_self_aux v' s1 hnd.1
      cases v with
      | true => simp [hs1 false, hrest]
      | false => simp [hs1 true, hrest, countEvents]
end

/-- C3 (amended): in summary mode `diff` emits, per directory name present
in both trees, exactly one change event carrying both subtrees and the
`diffcount` triple iff that triple is nonzero — where the triple counts the
events of the verbose diff of the subtrees, in which differences strictly
below a common immediate subdirectory are themselves aggregated into a
single change event (the triple is NOT the fully recursive total, see
`C3_counterexample`); on equal trees `diff` yields zero events; and the
spec's one-new-file example holds when the new file is a direct child of
the common subdirectory. -/
theorem C3_summary_change_events :
    (∀ t1 t2 : Directory,
      (diff false t1 t2).countP Event.isChangedDir
        = t1.dirs.countP (fun en =>
            match lookupA t2.dirs en.1 with
            | some s2 => decide (diffcount en.2 s2 ≠ ((0, 0, 0) : Nat × Nat × Nat))
            | none => false)) ∧
    (∀ (t1 t2 : Directory) (n : Str) (s1 s2 : Directory),
      lookupA t1.dirs n = some s1 → lookupA t2.dirs n = some s2 →
      diffcount s1 s2 ≠ ((0, 0, 0) : Nat × Nat × Nat) →
      Event.changedDir s1 s2 (diffcount s1 s2).1 (diffcount s1 s2).2.1
        (diffcount s1 s2).2.2 ∈ diff false t1 t2) ∧
    (∀ t : Directory, nodupKeys t = true → ∀ v, diff v t t = []) ∧
    diff false uTree1 uTree2 = [Event.changedDir dSub1 dSub2 0 1 0] := by
  refine ⟨fun t1 t2 => ?_, fun t1 t2 n s1 s2 h1 h2 hne => ?_,
    fun t v h => diff_self_aux h t v, rfl⟩
  · rcases t1 with ⟨nm, pa, ds, fs⟩
    rw [diff]
    simp only [List.countP_append]
    have hacc : (Directory.mk nm pa ds fs).dirs = ds := rfl
    rw [hacc, commonD_false_count ds t2.dirs, commonF_no_changedDir]
    have hz : ∀ (l : List Event), (∀ x ∈ l, Event.isChangedDir x = false) →
        l.countP Event.isChangedDir = 0 := by
      intro l hall
      rw [List.countP_eq_zero]
      intro a ha
      simp [hall a ha]
    rw [hz _ (by rintro x hx; rcases List.mem_map.mp hx with ⟨e, _, rfl⟩; rfl),
        hz _ (by rintro x hx; rcases List.mem_map.mp hx with ⟨e, _, rfl⟩; rfl),
        hz _ (by rintro x hx; rcases List.mem_map.mp hx with ⟨e, _, rfl⟩; rfl),
        hz _ (by rintro x hx; rcases List.mem_map.mp hx with ⟨e, _, rfl⟩; rfl)]
    omega
  · rcases t1 with ⟨nm, pa, ds, fs⟩
    rw [diff]
    simp only [Directory.dirs] at h1
    have hc := mem_commonD_false ds t2.dirs n s1 s2 h1 h2 hne
    simp only [List.mem_append]
    tauto

/-- C3 counterexample: with the single new file three levels down
(`d/e/g/f`), summary diff emits the triple (0, 0, 1) for `d`, while the
recursive totals over the whole nested subtree are (0, 1, 0): the emitted
triple is not the recursive total the claim describes. -/
theorem C3_counterexample :
    diff false vTree1 vTree2 = [Event.changedDir dDeep1 dDeep2 0 0 1] ∧
    countEvents (diffFull dDeep1 dDeep2) = (0, 1, 0) ∧
    ((0, 0, 1) : Nat × Nat × Nat) ≠ (0, 1, 0) :=
  ⟨rfl, rfl, by decide⟩

theorem C3_witness :
    diff true uTree1 uTree1 = [] ∧
    Event.changedDir dSub1 dSub2 0 1 0 ∈ diff false uTree1 uTree2 := by
  refine ⟨C3_summary_change_events.2.2.1 uTree1 (by decide) true, ?_⟩
  exact C3_summary_change_events.2.1 uTree1 uTree2 (lit "d") dSub1 dSub2 rfl rfl
    (by decide)

/-! ## C7: find with the empty pattern enumerates the subtree exactly once -/

theorem inStr_nil : ∀ l : Str, inStr [] l = true
  | [] => rfl
  | _ :: _ => rfl

mutual
theorem find_empty : (d : Directory) → d.find [] true = d.descendants
  | .mk nm p ds fs => by
      rw [Directory.find, Directory.descendants, findChildren_empty ds,
        List.filter_eq_self.mpr (fun x _ => inStr_nil x.2.path)]
theorem findChildren_empty :
    (ds : List (Str × Directory)) → findChildren ds [] true = descChildren ds
  | [] => rfl
  | (n, d) :: t => by
      rw [findChildren, descChildren, find_empty d, findChildren_empty t]
      simp [inStr_nil]
end

/-- The prefix that `pathjoin p` prepends to a (non-absolute) name. -/
def qpre (p : Str) : Str :=
  if p = [] then [] else if p.getLast? = some '/' then p else p ++ ['/']

theorem no_slash_head (n : Str) (h : '/' ∉ n) : n.head? ≠ some '/' := by
  cases n with
  | nil => simp
  | cons c t =>
      intro hEq
      rw [List.head?_cons] at hEq
      injection hEq with h2
      exact h (List.mem_cons.mpr (Or.inl h2.symm))

theorem getLast?_no_slash (n : Str) (h : '/' ∉ n) (hne : n ≠ []) :
    n.getLast? ≠ some '/' := by
  rw [List.getLast?_eq_getLast_of_ne_nil hne]
  intro hEq
  injection hEq with h2
  exact h (h2 ▸ List.getLast_mem hne)

theorem pathjoin_eq_qpre (p n : Str) (hn : n.head? ≠ some '/') :
    pathjoin p n = qpre p ++ n := by
  rw [pathjoin, qpre, if_neg hn]
  by_cases hp : p = []
  · rw [if_pos hp, if_pos hp]; rfl
  · rw [if_neg hp, if_neg hp]
    by_cases hl : p.getLast? = some '/'
    · rw [if_pos hl, if_pos hl]
    · rw [if_neg hl, if_neg hl]
      simp

theorem pathjoin_ne_nil (p n : Str) (hne : n ≠ []) (hn : n.head? ≠ some '/') :
    pathjoin p n ≠ [] := by
  rw [pathjoin_eq_qpre p n hn]
  simp [hne]

theorem getLast?_pathjoin (p n : Str) (hne : n ≠ []) (hn : n.head? ≠ some '/') :
    (pathjoin p n).getLast? = n.getLast? := by
  rw [pathjoin_eq_qpre p n hn]
  exact List.getLast?_append_of_ne_nil _ hne

theorem pathjoin_extend (p n m : Str) (hne : n ≠ []) (hsl : '/' ∉ n)
    (hm : m.head? ≠ some '/') :
    pathjoin (pathjoin p n) m = pathjoin p n ++ '/' :: m := by
  have hn : n.head? ≠ some '/' := no_slash_head n hsl
  conv_lhs => rw [pathjoin]
  rw [if_neg hm, if_neg (pathjoin_ne_nil p n hne hn),
    getLast?_pathjoin p n hne hn, if_neg (getLast?_no_slash n hsl hne)]

theorem base_ne_append (b l : Str) (h : l ≠ []) : b ≠ b ++ l := by
  intro hEq
  have hlen := congrArg List.length hEq
  rw [List.length_append] at hlen
  cases l with
  | nil => exact h rfl
  | cons c t => simp at hlen

theorem segAppend : ∀ (n₁ n₂ r₁ r₂ : Str), '/' ∉ n₁ → '/' ∉ n₂ →
    (r₁ = [] ∨ r₁.head? = some '/') → (r₂ = [] ∨ r₂.head? = some '/') →
    n₁ ++ r₁ = n₂ ++ r₂ → n₁ = n₂ ∧ r₁ = r₂ := by
  intro n₁
  induction n₁ with
  | nil =>
      intro n₂ r₁ r₂ h1 h2 hr1 hr2 hEq
      rw [List.nil_append] at hEq
      cases n₂ with
      | nil => exact ⟨rfl, by simpa using hEq⟩
      | cons c t =>
          exfalso
          rcases hr1 with hh | hh
          · rw [hh] at hEq; cases hEq
          · rw [hEq] at hh
            simp only [List.cons_append, List.head?_cons, Option.some.injEq] at hh
            exact h2 (List.mem_cons.mpr (Or.inl hh.symm))
  | cons c t ih =>
      intro n₂ r₁ r₂ h1 h2 hr1 hr2 hEq
      cases n₂ with
      | nil =>
          exfalso
          rw [List.nil_append] at hEq
          rcases hr2 with hh | hh
          · rw [hh] at hEq; cases hEq
          · rw [← hEq] at hh
            simp only [List.cons_append, List.head?_cons, Option.some.injEq] at hh
            exact h1 (List.mem_cons.mpr (Or.inl hh.symm))
      | cons c₂ t₂ =>
          simp only [List.cons_append, List.cons.injEq] at hEq
          obtain ⟨hc, ht⟩ := hEq
          have h1' : '/' ∉ t := fun hm => h1 (List.mem_cons.mpr (Or.inr hm))
          have h2' : '/' ∉ t₂ := fun hm => h2 (List.mem_cons.mpr (Or.inr hm))
          obtain ⟨hteq, hreq⟩ := ih t₂ r₁ r₂ h1' h2' hr1 hr2 ht
          exact ⟨by rw [hc, hteq], hreq⟩

theorem path_disc (p n₁ n₂ r₁ r₂ : Str) (hs₁ : '/' ∉ n₁) (he₁ : n₁ ≠ [])
    (hs₂ : '/' ∉ n₂) (he₂ : n₂ ≠ [])
    (hr₁ : r₁ = [] ∨ r₁.head? = some '/') (hr₂ : r₂ = [] ∨ r₂.head? = some '/')
    (hEq : pathjoin p n₁ ++ r₁ = pathjoin p n₂ ++ r₂) : n₁ = n₂ ∧ r₁ = r₂ := by
  rw [pathjoin_eq_qpre p n₁ (no_slash_head n₁ hs₁),
    pathjoin_eq_qpre p n₂ (no_slash_head n₂ hs₂),
    List.append_assoc, List.append_assoc] at hEq
  exact segAppend n₁ n₂ r₁ r₂ hs₁ hs₂ hr₁ hr₂ (List.append_cancel_left hEq)

/-- The identity of a node as `find` observes it: directory-or-file tag plus
the full path. -/
def nodeKey (x : FsNode) : Bool × Str := (x.isDirB, x.path)

mutual
theorem desc_shape_nodup : (d : Directory) → wellformed d = true →
    ((d.descendants).map nodeKey).Nodup ∧
    (∀ x ∈ d.descendants, ∃ n r, n ≠ [] ∧ '/' ∉ n ∧ (r = [] ∨ r.head? = some '/') ∧
      x.path = pathjoin d.path n ++ r)
  | .mk nm p ds fs, h => by
      rw [wellformed] at h
      simp only [Bool.and_eq_true, decide_eq_true_eq, List.all_eq_true] at h
      obtain ⟨⟨⟨hndd, hndf⟩, hfs⟩, hwf⟩ := h
      have hch := descChildren_shape_nodup p ds hwf hndd
      have hmap : (fs.map (fun e => FsNode.file e.2)).map nodeKey
          = (fs.map Prod.fst).map (fun nm1 => ((false : Bool), qpre p ++ nm1)) := by
        rw [List.map_map, List.map_map]
        apply List.map_congr_left
        intro e he
        obtain ⟨⟨⟨hene, hesl⟩, _⟩, hepath⟩ := hfs e he
        simp only [Function.comp]
        rw [show nodeKey (FsNode.file e.2) = ((false : Bool), e.2.path) from rfl,
          hepath, pathjoin_eq_qpre p e.1 (no_slash_head e.1 hesl)]
      constructor
      · rw [Directory.descendants, List.map_append, List.nodup_append, hmap]
        refine ⟨?_, hch.1, ?_⟩
        · refine hndf.map ?_
          intro a b hEq
          exact List.append_cancel_left (congrArg Prod.snd hEq)
        · intro k hkA hkB
          rcases List.mem_map.mp hkA with ⟨nm1, hnm1, hknm⟩
          rcases List.mem_map.mp hkB with ⟨y, hy, hky⟩
          obtain ⟨n, r, hn1, hn2, hrr, hpath, himp, _⟩ := hch.2 y hy
          rcases List.mem_map.mp hnm1 with ⟨e, he, hef⟩
          obtain ⟨⟨⟨hene, hesl⟩, _⟩, _⟩ := hfs e he
          have hxy : ((false : Bool), qpre p ++ nm1) = nodeKey y := hknm.trans hky.symm
          have hb : (false : Bool) = y.isDirB := congrArg Prod.fst hxy
          have hp2 : qpre p ++ nm1 = y.path := congrArg Prod.snd hxy
          rw [hpath] at hp2
          have hEqp : pathjoin p nm1 ++ [] = pathjoin p n ++ r := by
            rw [List.append_nil, pathjoin_eq_qpre p nm1
              (no_slash_head nm1 (hef ▸ hesl))]
            exact hp2
          have hseg := path_disc p nm1 n [] r (hef ▸ hesl) (hef ▸ hene) hn2 hn1
            (Or.inl rfl) hrr hEqp
          have hdirb : y.isDirB = true := himp hseg.2.symm
          rw [hdirb] at hb
          cases hb
      · intro x hx
        rw [Directory.descendants] at hx
        rcases List.mem_append.mp hx with hx1 | hx1
        · rcases List.mem_map.mp hx1 with ⟨e, he, hef⟩
          obtain ⟨⟨⟨hene, hesl⟩, _⟩, hepath⟩ := hfs e he
          refine ⟨e.1, [], hene, hesl, Or.inl rfl, ?_⟩
          rw [← hef, List.append_nil]
          show e.2.path = pathjoin (Directory.mk nm p ds fs).path e.1
          rw [hepath]
          rfl
        · obtain ⟨n, r, hn1, hn2, hrr, hpath, _, _⟩ := hch.2 x hx1
          exact ⟨n, r, hn1, hn2, hrr, hpath⟩
theorem descChildren_shape_nodup : (p : Str) → (ds : List (Str × Directory)) →
    wfChildren p ds = true → (ds.map Prod.fst).Nodup →
    ((descChildren ds).map nodeKey).Nodup ∧
    (∀ x ∈ descChildren ds, ∃ n r, n ≠ [] ∧ '/' ∉ n ∧ (r = [] ∨ r.head? = some '/') ∧
      x.path = pathjoin p n ++ r ∧ (r = [] → x.isDirB = true) ∧ n ∈ ds.map Prod.fst)
  | p, [], _, _ => by
      refine ⟨by rw [descChildren]; exact List.nodup_nil, ?_⟩
      intro x hx
      rw [descChildren] at hx
      cases hx
  | p, (n₀, c) :: rest, h, hnd => by
      rw [wfChildren] at h
      simp only [Bool.and_eq_true, decide_eq_true_eq] at h
      obtain ⟨⟨⟨⟨⟨hn₀ne, hn₀sl⟩, hcn⟩, hcp⟩, hwfc⟩, hwfr⟩ := h
      rw [List.map_cons, List.nodup_cons] at hnd
      obtain ⟨hnotin, hndr⟩ := hnd
      have hc := desc_shape_nodup c hwfc
      have hr := descChildren_shape_nodup p rest hwfr hndr
      have hcdesc : ∀ x ∈ c.descendants, ∃ r', r'.head? = some '/' ∧
          x.path = pathjoin p n₀ ++ r' := by
        intro x hx
        obtain ⟨m, r, hm1, hm2, hrr, hpath⟩ := hc.2 x hx
        refine ⟨'/' :: (m ++ r), rfl, ?_⟩
        rw [hpath, hcp, pathjoin_extend p n₀ m hn₀ne hn₀sl (no_slash_head m hm2)]
        simp
      constructor
      · rw [descChildren]
        rw [show List.map nodeKey (FsNode.dir c :: c.descendants ++ descChildren rest)
            = nodeKey (FsNode.dir c) :: List.map nodeKey (c.descendants ++ descChildren rest)
          from rfl, List.nodup_cons]
        constructor
        · intro hmem
          rw [List.map_append, List.mem_append] at hmem
          rcases hmem with hm | hm
          · rcases List.mem_map.mp hm with ⟨x, hx, hkx⟩
            obtain ⟨r', hr'h, hr'p⟩ := hcdesc x hx
            have hpx : c.path = x.path :=
              congrArg Prod.snd (show nodeKey (FsNode.dir c) = nodeKey x from hkx.symm)
            rw [hr'p, hcp] at hpx
            have hr'ne : r' ≠ [] := by
              intro hh; rw [hh] at hr'h; cases hr'h
            exact base_ne_append _ r' hr'ne hpx
          · rcases List.mem_map.mp hm with ⟨y, hy, hky⟩
            obtain ⟨n, r, hn1, hn2, hrr, hpath, _, hmemb⟩ := hr.2 y hy
            have hpy : c.path = y.path :=
              congrArg Prod.snd (show nodeKey (FsNode.dir c) = nodeKey y from hky.symm)
            rw [hpath, hcp] at hpy
            have hseg := path_disc p n₀ n [] r hn₀sl hn₀ne hn2 hn1 (Or.inl rfl) hrr
              (by rw [List.append_nil]; exact hpy)
            exact hnotin (hseg.1 ▸ hmemb)
        · rw [List.map_append, List.nodup_append]
          refine ⟨hc.1, hr.1, ?_⟩
          intro k hkc hkr
          rcases List.mem_map.mp hkc with ⟨x, hx, hkx⟩
          rcases List.mem_map.mp hkr with ⟨y, hy, hky⟩
          obtain ⟨r', hr'h, hr'p⟩ := hcdesc x hx
          obtain ⟨n, r, hn1, hn2, hrr, hpath, _, hmemb⟩ := hr.2 y hy
          have hpxy : x.path = y.path := congrArg Prod.snd (hkx.trans hky.symm)
          rw [hr'p, hpath] at hpxy
          have hseg := path_disc p n₀ n r' r hn₀sl hn₀ne hn2 hn1 (Or.inr hr'h) hrr hpxy
          exact hnotin (hseg.1 ▸ hmemb)
      · intro x hx
        rw [descChildren] at hx
        rcases List.mem_cons.mp hx with hx1 | hx1
        · refine ⟨n₀, [], hn₀ne, hn₀sl, Or.inl rfl, ?_, fun _ => by rw [hx1]; rfl,
            show n₀ ∈ n₀ :: List.map Prod.fst rest from List.mem_cons_self _ _⟩
          rw [hx1, List.append_nil]
          show c.path = pathjoin p n₀
          exact hcp
        · rcases List.mem_append.mp hx1 with hx2 | hx2
          · obtain ⟨r', hr'h, hr'p⟩ := hcdesc x hx2
            refine ⟨n₀, r', hn₀ne, hn₀sl, Or.inr hr'h, hr'p, ?_,
              show n₀ ∈ n₀ :: List.map Prod.fst rest from List.mem_cons_self _ _⟩
            intro hh; rw [hh] at hr'h; cases hr'h
          · obtain ⟨n, r, hn1, hn2, hrr, hpath, himp, hmemb⟩ := hr.2 x hx2
            exact ⟨n, r, hn1, hn2, hrr, hpath, himp,
              show n ∈ n₀ :: List.map Prod.fst rest from List.mem_cons.mpr (Or.inr hmemb)⟩
end

/-- C7: `find("")` with recursion enabled yields exactly the depth-first
enumeration of every File and Directory node below the directory, and on a
well-formed tree (unique names per level, consistent slash-joined paths)
the yielded list has no duplicates: every node appears exactly once. -/
theorem C7_find_enumerates_subtree :
    (∀ d : Directory, d.find [] true = d.descendants) ∧
    (∀ d : Directory, wellformed d = true →
      ((d.find [] true).map nodeKey).Nodup ∧ (d.find [] true).Nodup) := by
  refine ⟨find_empty, fun d h => ?_⟩
  rw [find_empty d]
  have hmain := (desc_shape_nodup d h).1
  exact ⟨hmain, hmain.of_map nodeKey⟩

theorem C7_witness :
    tree2.find [] true = tree2.descendants ∧
    ((tree2.find [] true).map nodeKey).Nodup := by
  exact ⟨C7_find_enumerates_subtree.1 tree2,
    (C7_find_enumerates_subtree.2 tree2 (by decide)).1⟩

end Halon
